import Mathlib

/-!
Verification development for the SnedBot events extension
(`src/extensions/events.py`): the sign-up state engine.

The Python code stores, per event row, a JSON object
`categories : {name -> {emoji, buttonlabel, buttonstyle, member_cap, members}}`.
We embed that object as an ordered association list with `Nat` user ids.
The enrollment transition is `SignUpCategoryButton.callback`
(events.py lines 49-96); the expiry handler is
`Events.on_event_timer_complete` (lines 137-165); the display trimming is
`SignUpCategoryButton.refresh_embed_field` (lines 32-46); the wizard's
category-name check is `Events.event_setup` / `add_category`
(lines 304-313, 347-353).
-/

namespace SnedEvents

/-- One category value of the JSON `categories` mapping
(events.py, shape created at lines 347-353). -/
structure Category where
  emoji : String
  buttonlabel : String
  buttonstyle : String
  member_cap : Option Nat
  members : List Nat
deriving DecidableEq, Repr

/-- The ordered `categories` mapping: a JSON object, so keys are unique and
order is insertion order. -/
abbrev Categories := List (String × Category)

/-- Python dict lookup `categories[name]` (first, and with unique keys only,
binding for `name`); `none` models a `KeyError`. -/
def lookupCat : Categories → String → Option Category
  | [], _ => none
  | (n, c) :: rest, cname => if n = cname then some c else lookupCat rest cname

/-- Python truthiness check plus comparison at events.py line 71:
`data["member_cap"] and data["member_cap"] <= len(data["members"])`.
A `None` (and, by truthiness, a `0`) capacity never counts as full. -/
def capIsFull (c : Category) : Bool :=
  match c.member_cap with
  | none => false
  | some cap => decide (cap ≠ 0) && decide (cap ≤ c.members.length)

/-- Python truthiness check plus role test at events.py line 73:
`record["permitted_roles"][0] and not any(role_id in user_roles for role_id
in record["permitted_roles"][0])`.  A `None` (and, by truthiness, an empty)
role list never forbids. -/
def roleForbidden (permitted : Option (List Nat)) (userRoles : List Nat) : Bool :=
  match permitted with
  | none => false
  | some rs => decide (rs ≠ []) && decide (∀ r ∈ rs, r ∉ userRoles)

/-- Outcome names used by `state` in the callback (events.py lines 55-60). -/
inductive Outcome where
  | added
  | removed
  | moved
deriving DecidableEq, Repr

/-- The two ephemeral rejection messages of the callback
(events.py lines 72 and 74). -/
inductive Reject where
  | categoryFull
  | forbidden
deriving DecidableEq, Repr

/-- Result of one click on a sign-up button.  `mutated` means the callback
reached the database write (line 87) with the new mapping; `rejected` means
it returned early with an ephemeral message and wrote nothing; `exn` means a
Python exception escaped the callback (no write, no message). -/
inductive ClickResult where
  | mutated (outcome : Outcome) (newCats : Categories)
  | rejected (r : Reject)
  | exn
deriving DecidableEq, Repr

/-- Update the value stored under `key` in the association list, leaving
every other entry alone: the embedding of a Python dict-entry mutation
`categories[key] = ...` / in-place list mutation of its value. -/
def updateAt (key : String) (f : Category → Category) (cats : Categories) : Categories :=
  cats.map fun p => if p.1 = key then (p.1, f p.2) else p

/-- Replace the member list stored under `cname`. -/
def setMembers (cats : Categories) (cname : String) (ms : List Nat) : Categories :=
  updateAt cname (fun c => { c with members := ms }) cats

/-- Remove the first occurrence of `uid` from the member list stored under
`dname`: Python `categories[dname]["members"].remove(uid)`. -/
def eraseMemberFrom (cats : Categories) (dname : String) (uid : Nat) : Categories :=
  updateAt dname (fun c => { c with members := c.members.erase uid }) cats

/-- The first `for category, data in categories.items():` loop of the adding
branch (events.py lines 69-77): at the entry named `cname` it returns the
`CategoryFull` rejection (line 72), else the `Forbidden` rejection
(line 74), else appends `uid` to its members (line 76); every other entry is
left unchanged, and the loop keeps going after the append. -/
def addLoop (cname : String) (uid : Nat) (userRoles : List Nat)
    (permitted : Option (List Nat)) : Categories → Except Reject Categories
  | [] => .ok []
  | (n, c) :: rest =>
    if n = cname then
      if capIsFull c then .error .categoryFull
      else if roleForbidden permitted userRoles then .error .forbidden
      else
        match addLoop cname uid userRoles permitted rest with
        | .error r => .error r
        | .ok rest' => .ok ((n, { c with members := c.members ++ [uid] }) :: rest')
    else
      match addLoop cname uid userRoles permitted rest with
      | .error r => .error r
      | .ok rest' => .ok ((n, c) :: rest')

/-- The second `for category, data in categories.items():` loop of the adding
branch (events.py lines 79-84): find the first entry other than `cname`
whose members contain `uid`; if found, set `state = "moved"`, remove `uid`
from it and `break`. Returns (moved?, updated mapping). -/
def moveLoop (cname : String) (uid : Nat) : Categories → Bool × Categories
  | [] => (false, [])
  | (n, c) :: rest =>
    if uid ∈ c.members ∧ n ≠ cname then
      (true, (n, { c with members := c.members.erase uid }) :: rest)
    else
      ((moveLoop cname uid rest).1, (n, c) :: (moveLoop cname uid rest).2)

/-- The enrollment transition of `SignUpCategoryButton.callback`
(events.py lines 63-96), applied to the `categories` snapshot read from the
cache.  Line 63 subscripts `categories[self.category_name]`, so a missing
category name raises a `KeyError` that nothing in the callback catches:
that is the `.exn` result. -/
def enroll (cats : Categories) (permitted : Option (List Nat)) (cname : String)
    (uid : Nat) (userRoles : List Nat) : ClickResult :=
  match lookupCat cats cname with
  | none => .exn
  | some cat =>
    if uid ∈ cat.members then
      .mutated .removed (eraseMemberFrom cats cname uid)
    else
      match addLoop cname uid userRoles permitted cats with
      | .error r => .rejected r
      | .ok cats1 =>
        .mutated (if (moveLoop cname uid cats1).1 then .moved else .added)
          (moveLoop cname uid cats1).2

/-- The event row fields the callback reads: `record["permitted_roles"][0]`
and `record["categories"][0]` (events.py lines 51-52, 73). -/
structure EventRecord where
  permitted_roles : Option (List Nat)
  categories : Categories
deriving DecidableEq, Repr

/-- Modelled from the spec: the read-through cache
(`extensions/utils/cache.py`) is not part of the sources; section 6 of the
spec gives its contract `Get(table, filters...) -> rows|empty`, and the
callers test the result's truthiness (`if record:` in events.py line 188).
We therefore model the fetched row as an `Option EventRecord`.  The whole
click handler (events.py lines 49-96): when the event row no longer exists,
line 52 subscripts the empty result, which raises an exception that nothing
in the callback catches (`.exn`); otherwise the enrollment transition runs
on the row's category mapping. -/
def clickCallback (record : Option EventRecord) (cname : String) (uid : Nat)
    (roles : List Nat) : ClickResult :=
  match record with
  | none => .exn
  | some rec => enroll rec.categories rec.permitted_roles cname uid roles

/-! Specification-side transition, for the refinement claim on the decision
order.  These definitions follow the words of spec section 4.1, not the
code's two loops. -/

/-- Spec wording of step 2: "category_name is full (capacity set and
reached)". -/
def capReachedSpec (c : Category) : Bool :=
  match c.member_cap with
  | none => false
  | some cap => decide (cap ≤ c.members.length)

/-- Spec wording of step 3: "the event restricts roles and the requester
holds none of permitted_roles". -/
def roleForbiddenSpec (permitted : Option (List Nat)) (userRoles : List Nat) : Bool :=
  match permitted with
  | none => false
  | some rs => decide (∀ r ∈ rs, r ∉ userRoles)

/-- The first category other than `cname` whose members contain `uid`: the
"some other category D in the same event" of spec step 4, determinized (in
a state satisfying cross-category uniqueness there is at most one such D). -/
def firstOtherCategory (cname : String) (uid : Nat) : Categories → Option String
  | [] => none
  | (n, c) :: rest =>
    if uid ∈ c.members ∧ n ≠ cname then some n
    else firstOtherCategory cname uid rest

/-- The transition rule exactly as spec section 4.1 states it:
1. already a member of `cname` -> remove, outcome `removed`;
2. else full -> `CategoryFull`, no mutation;
3. else role-restricted and no permitted role held -> `Forbidden`, no
   mutation;
4. else add to `cname`; if a member of some other category D, remove from D
   and the outcome is `moved`, otherwise `added`. -/
def enrollSpec (cats : Categories) (permitted : Option (List Nat)) (cname : String)
    (uid : Nat) (userRoles : List Nat) : ClickResult :=
  match lookupCat cats cname with
  | none => .exn
  | some cat =>
    if uid ∈ cat.members then
      .mutated .removed (setMembers cats cname (cat.members.erase uid))
    else if capReachedSpec cat then .rejected .categoryFull
    else if roleForbiddenSpec permitted userRoles then .rejected .forbidden
    else
      match firstOtherCategory cname uid cats with
      | some dname =>
        .mutated .moved
          (eraseMemberFrom (setMembers cats cname (cat.members ++ [uid])) dname uid)
      | none => .mutated .added (setMembers cats cname (cat.members ++ [uid]))

/-! Data-model invariants of spec section 3, as executable checks. -/

/-- Capacity invariant: `len(members) <= capacity` whenever capacity is set. -/
def capacityInvariant (cats : Categories) : Bool :=
  cats.all fun p =>
    match p.2.member_cap with
    | none => true
    | some k => decide (p.2.members.length ≤ k)

/-- Cross-category uniqueness: a user id appears in the members of at most
one category of the event (two entries sharing a member share their key). -/
def crossUniqueInvariant (cats : Categories) : Bool :=
  decide (∀ p ∈ cats, ∀ q ∈ cats, ∀ u ∈ p.2.members, u ∈ q.2.members → p.1 = q.1)

/-- No duplicates inside one category's member list. -/
def membersNodupInvariant (cats : Categories) : Bool :=
  cats.all fun p => decide p.2.members.Nodup

/-! A small interleaving machine for the concurrency claim.  Each click
callback is a read-modify-write: it reads the `categories` snapshot from the
cache (events.py line 51, an await), decides the transition from that
snapshot alone, and later writes the whole updated JSON object back
(`UPDATE events SET categories = $1`, line 87, behind further awaits at
lines 86-93).  Nothing in the code takes a lock between the read and the
write, so the read of one task and the write of another may interleave.
A schedule fixes, for each task, when its read and its write happen. -/

/-- One concurrent click: the clicking user and the roles they hold. -/
structure CTask where
  uid : Nat
  roles : List Nat
deriving DecidableEq, Repr

/-- A scheduling event: task `i` performs its cache read, or task `i`
performs its decision-plus-write-back. -/
inductive CEvent where
  | readSnap (i : Nat)
  | writeBack (i : Nat)
deriving DecidableEq, Repr

/-- State of a concurrent execution: the durable store's `categories`
value, each task's snapshot (none until its read ran) and each task's
result (none until its write ran). -/
structure CState where
  store : Categories
  snaps : List (Option Categories)
  results : List (Option ClickResult)
deriving DecidableEq, Repr

/-- One scheduling step.  A read copies the current store into the task's
snapshot.  A write runs the enrollment transition on the task's snapshot
and, when it mutates, overwrites the store with the result — exactly the
wholesale `UPDATE ... SET categories = $1` of events.py line 87. -/
def cstep (tasks : List CTask) (permitted : Option (List Nat)) (cname : String)
    (s : CState) : CEvent → CState
  | .readSnap i => { s with snaps := s.snaps.set i (some s.store) }
  | .writeBack i =>
    match s.snaps.getD i none, tasks.get? i with
    | some snap, some t =>
      match enroll snap permitted cname t.uid t.roles with
      | .mutated o newCats =>
        { s with store := newCats, results := s.results.set i (some (.mutated o newCats)) }
      | r => { s with results := s.results.set i (some r) }
    | _, _ => s

/-- Run a whole schedule from an initial store. -/
def crun (tasks : List CTask) (permitted : Option (List Nat)) (cname : String)
    (init : Categories) (sched : List CEvent) : CState :=
  sched.foldl (cstep tasks permitted cname)
    { store := init
      snaps := List.replicate tasks.length none
      results := List.replicate tasks.length none }

/-- Serial execution of one enrollment per user in `us`: each call's
write-back completes before the next call's read, i.e. each call runs on
the state the previous call produced.  Returns the result list and the
final store. -/
def serialResults (cats : Categories) (permitted : Option (List Nat)) (cname : String)
    (roles : List Nat) : List Nat → List ClickResult × Categories
  | [] => ([], cats)
  | u :: us =>
    match enroll cats permitted cname u roles with
    | .mutated o newCats =>
      (ClickResult.mutated o newCats :: (serialResults newCats permitted cname roles us).1,
        (serialResults newCats permitted cname roles us).2)
    | r => (r :: (serialResults cats permitted cname roles us).1,
        (serialResults cats permitted cname roles us).2)

/-- Count of `added` outcomes among click results. -/
def countAdded (rs : List ClickResult) : Nat :=
  rs.countP fun r => match r with
    | .mutated .added _ => true
    | _ => false

/-- Count of `CategoryFull` rejections among click results. -/
def countFullRejections (rs : List ClickResult) : Nat :=
  rs.countP fun r => match r with
    | .rejected .categoryFull => true
    | _ => false

/-! The expiry handler, `Events.on_event_timer_complete`
(events.py lines 137-165). -/

/-- The event row fields the expiry handler reads: `record["msg_id"][0]`
and `record["categories"][0]`. -/
structure ExpiryRecord where
  msg_id : Nat
  categories : Categories
deriving DecidableEq, Repr

/-- Exceptions that can escape the expiry handler. -/
inductive ExpiryError where
  | guildAttribute
  | recordSubscript
  | rosterTooLarge
deriving DecidableEq, Repr

/-- Observable effects of one expiry-handler run: whether the published
message's controls were stripped (line 148), whether the event row was
deleted (line 156), whether the cache was refreshed (line 157), whether the
roster summary was posted (line 163), and which exception, if any, escaped. -/
structure ExpiryEffects where
  viewStripped : Bool
  rowDeleted : Bool
  cacheRefreshed : Bool
  summaryPosted : Bool
  raised : Option ExpiryError
deriving DecidableEq, Repr

/-- The run that touches nothing and raises nothing. -/
def noEffects : ExpiryEffects :=
  { viewStripped := false
    rowDeleted := false
    cacheRefreshed := false
    summaryPosted := false
    raised := none }

/-- Python `member.mention` for the members of one category that still
resolve in the guild (events.py lines 151-153): unresolvable ids are
dropped, the rest become `<@id>` mentions. -/
def memberMentions (resolve : Nat → Bool) (ms : List Nat) : List String :=
  (ms.filter resolve).map fun uid => "<@" ++ toString uid ++ ">"

/-- The `response_str` the expiry handler renders (events.py lines
149-153): the header, then one ` \n**name: mentions**` block per category
in mapping order. -/
def buildResponseStr (title : String) (cats : Categories) (resolve : Nat → Bool) : String :=
  cats.foldl
    (fun acc p =>
      acc ++ " \n**" ++ p.1 ++ ": " ++
        String.intercalate (", ") (memberMentions resolve p.2.members) ++ "**")
    ("Event **'" ++ title ++ "'** is starting now!\n")

/-- Modelled from the spec: the cached row fetch of line 140 uses the same
absent `extensions/utils/cache.py`, so the fetched row is again an
`Option`.  The handler `Events.on_event_timer_complete`, lines 137-165:
if the guild cannot be resolved, line 141 dereferences `None` and raises;
if the channel cannot be resolved, the `if guild and channel:` guard makes
the whole handler fall through; otherwise line 144 subscripts the record
(raising when the row is gone — only `discord.NotFound` is caught there),
a missing message makes the handler `return` at line 146, and otherwise it
strips the view, renders the roster, deletes the row, refreshes the cache,
and then either raises `ValueError` when the roster exceeds 2000 characters
or posts it (swallowing `discord.Forbidden`). -/
def on_event_timer_complete (record : Option ExpiryRecord)
    (guildExists channelExists messageExists canPost : Bool)
    (title : String) (resolve : Nat → Bool) : ExpiryEffects :=
  if !guildExists then { noEffects with raised := some .guildAttribute }
  else if !channelExists then noEffects
  else
    match record with
    | none => { noEffects with raised := some .recordSubscript }
    | some rec =>
      if !messageExists then noEffects
      else
        if (buildResponseStr title rec.categories resolve).length > 2000 then
          { viewStripped := true
            rowDeleted := true
            cacheRefreshed := true
            summaryPosted := false
            raised := some .rosterTooLarge }
        else
          { viewStripped := true
            rowDeleted := true
            cacheRefreshed := true
            summaryPosted := canPost
            raised := none }

/-! The member-name display trimming of
`SignUpCategoryButton.refresh_embed_field` (events.py lines 36-38). -/

/-- Python slice `l[:e]` for an integer bound `e`: a negative bound counts
from the end. -/
def pySliceUpTo (l : List String) (e : Int) : List String :=
  if e < 0 then l.take ((l.length + e).toNat) else l.take e.toNat

/-- Line 37: `names[: -(len(names)-5) or None] if names else ["-"]`.
The slice bound is the integer `-(len(names)-5)`; Python's `or None` turns
a zero bound (exactly five names) into an unbounded slice. -/
def trimNames (names : List String) : List String :=
  if names = [] then ["-"]
  else if -((names.length : Int) - 5) = 0 then names
  else pySliceUpTo names (-((names.length : Int) - 5))

/-- Line 38: `names = f"{names}`(...)`" if len(names) == 5 else names` —
the ellipsis marker is applied exactly when the trimmed list has length
five (turning the list into its Python string representation). -/
def ellipsisMarkerApplied (names : List String) : Bool :=
  (trimNames names).length == 5

/-! The wizard's category-name acceptance check, `add_category` inside
`Events.event_setup` (events.py lines 304-313), and the dict insertion at
line 347. -/

/-- The three ways the name prompt can resolve. -/
inductive NameCheckResult where
  | accepted
  | duplicateError
  | tooLongError
deriving DecidableEq, Repr

/-- Lines 305-312:
`if len(message.content) <= 25 or message.content not in categories.keys()`
accepts; `elif message.content in categories.keys()` aborts with the
duplicate-key error; `else` aborts with the too-long error. -/
def categoryNameCheck (content : String) (existing : List String) : NameCheckResult :=
  if content.length ≤ 25 ∨ content ∉ existing then .accepted
  else if content ∈ existing then .duplicateError
  else .tooLongError

/-- Line 347: `categories[category_name] = {...}` — a Python dict
assignment, which silently replaces the value of an existing key (keeping
its position) and appends a new key at the end. -/
def dictInsert (cats : Categories) (name : String) (c : Category) : Categories :=
  if name ∈ cats.map Prod.fst then
    cats.map fun p => if p.1 = name then (p.1, c) else p
  else cats ++ [(name, c)]

/-! Concrete sample data used by the witnesses below. -/

/-- A sample category with the given capacity and members. -/
def demoCat (k : Option Nat) (ms : List Nat) : Category :=
  { emoji := "🔴"
    buttonlabel := "Red"
    buttonstyle := "Blurple"
    member_cap := k
    members := ms }

/-- A two-category sample event mapping. -/
def demoCats : Categories :=
  [("Red", demoCat (some 2) [11]), ("Blue", demoCat none [22])]

/-! Basic lemmas about the association-list operations. -/

theorem updateAt_cons (key : String) (f : Category → Category) (n : String)
    (c : Category) (rest : Categories) :
    updateAt key f ((n, c) :: rest) =
      (if n = key then (n, f c) else (n, c)) :: updateAt key f rest := rfl

theorem updateAt_keys (key : String) (f : Category → Category) (cats : Categories) :
    (updateAt key f cats).map Prod.fst = cats.map Prod.fst := by
  induction cats with
  | nil => rfl
  | cons p rest ih =>
    obtain ⟨n, c⟩ := p
    rw [updateAt_cons, List.map_cons, List.map_cons, ih]
    congr 1
    split <;> rfl

theorem updateAt_not_mem {key : String} {cats : Categories}
    (h : key ∉ cats.map Prod.fst) (f : Category → Category) :
    updateAt key f cats = cats := by
  induction cats with
  | nil => rfl
  | cons p rest ih =>
    obtain ⟨n, c⟩ := p
    simp only [List.map_cons, List.mem_cons, not_or] at h
    rw [updateAt_cons, if_neg (fun hn => h.1 hn.symm), ih h.2]

theorem lookupCat_mem {cats : Categories} {cname : String} {cat : Category}
    (h : lookupCat cats cname = some cat) : (cname, cat) ∈ cats := by
  induction cats with
  | nil => simp [lookupCat] at h
  | cons p rest ih =>
    obtain ⟨n, c⟩ := p
    rw [lookupCat] at h
    split at h
    · next hn =>
      injection h with h'
      subst hn
      subst h'
      exact List.mem_cons_self _ _
    · exact List.mem_cons_of_mem _ (ih h)

theorem keyInj {cats : Categories} (hkeys : (cats.map Prod.fst).Nodup)
    {n : String} {c1 c2 : Category} (h1 : (n, c1) ∈ cats) (h2 : (n, c2) ∈ cats) :
    c1 = c2 := by
  induction cats with
  | nil => cases h1
  | cons p rest ih =>
    rw [List.map_cons, List.nodup_cons] at hkeys
    rcases List.mem_cons.mp h1 with e1 | m1 <;> rcases List.mem_cons.mp h2 with e2 | m2
    · subst e1
      injection e2 with _ h
      exact h.symm
    · subst e1
      exact absurd (List.mem_map_of_mem Prod.fst m2) hkeys.1
    · subst e2
      exact absurd (List.mem_map_of_mem Prod.fst m1) hkeys.1
    · exact ih hkeys.2 m1 m2

theorem lookupCat_updateAt_self (key : String) (f : Category → Category) :
    ∀ cats : Categories,
      lookupCat (updateAt key f cats) key = (lookupCat cats key).map f := by
  intro cats
  induction cats with
  | nil => rfl
  | cons p rest ih =>
    obtain ⟨n, c⟩ := p
    rw [updateAt_cons]
    by_cases hn : n = key
    · rw [if_pos hn, lookupCat, lookupCat, if_pos hn, if_pos hn]
      rfl
    · rw [if_neg hn, lookupCat, lookupCat, if_neg hn, if_neg hn, ih]

/-! Characterizations of the two loops of the adding branch. -/

theorem addLoop_not_mem {cname : String} (uid : Nat) (roles : List Nat)
    (permitted : Option (List Nat)) :
    ∀ cats : Categories, cname ∉ cats.map Prod.fst →
      addLoop cname uid roles permitted cats = .ok cats := by
  intro cats
  induction cats with
  | nil => intro _; rfl
  | cons p rest ih =>
    intro h
    obtain ⟨n, c⟩ := p
    simp only [List.map_cons, List.mem_cons, not_or] at h
    rw [addLoop, if_neg (fun hn => h.1 hn.symm), ih h.2]

theorem addLoop_eq (cname : String) (cat : Category) (uid : Nat) (roles : List Nat)
    (permitted : Option (List Nat)) :
    ∀ cats : Categories, (cats.map Prod.fst).Nodup →
      lookupCat cats cname = some cat →
      addLoop cname uid roles permitted cats =
        if capIsFull cat then .error .categoryFull
        else if roleForbidden permitted roles then .error .forbidden
        else .ok (setMembers cats cname (cat.members ++ [uid])) := by
  intro cats
  induction cats with
  | nil => intro _ hfound; simp [lookupCat] at hfound
  | cons p rest ih =>
    intro hkeys hfound
    obtain ⟨n, c⟩ := p
    rw [List.map_cons, List.nodup_cons] at hkeys
    rw [lookupCat] at hfound
    by_cases hn : n = cname
    · rw [if_pos hn] at hfound
      injection hfound with hc
      subst hc
      have hrest : cname ∉ rest.map Prod.fst := by
        rw [← hn]
        exact hkeys.1
      rw [addLoop, if_pos hn]
      by_cases hf : capIsFull c
      · rw [if_pos hf, if_pos hf]
      · rw [if_neg hf, if_neg hf]
        by_cases hr : roleForbidden permitted roles
        · rw [if_pos hr, if_pos hr]
        · rw [if_neg hr, if_neg hr, addLoop_not_mem uid roles permitted rest hrest]
          unfold setMembers
          rw [updateAt_cons, if_pos hn, updateAt_not_mem hrest]
    · rw [if_neg hn] at hfound
      rw [addLoop, if_neg hn, ih hkeys.2 hfound]
      by_cases hf : capIsFull cat
      · rw [if_pos hf, if_pos hf]
      · rw [if_neg hf, if_neg hf]
        by_cases hr : roleForbidden permitted roles
        · rw [if_pos hr, if_pos hr]
        · rw [if_neg hr, if_neg hr]
          unfold setMembers
          rw [updateAt_cons, if_neg hn]

theorem firstOther_some (cname : String) (uid : Nat) (d : String) :
    ∀ cats : Categories, firstOtherCategory cname uid cats = some d →
      d ≠ cname ∧ d ∈ cats.map Prod.fst ∧ ∃ c, (d, c) ∈ cats ∧ uid ∈ c.members := by
  intro cats
  induction cats with
  | nil => intro h; simp [firstOtherCategory] at h
  | cons p rest ih =>
    intro h
    obtain ⟨n, c⟩ := p
    rw [firstOtherCategory] at h
    split at h
    · next hc =>
      injection h with h'
      subst h'
      exact ⟨hc.2, by simp, ⟨c, List.mem_cons_self _ _, hc.1⟩⟩
    · obtain ⟨h1, h2, c', hm, hu⟩ := ih h
      exact ⟨h1, by simp [h2], ⟨c', List.mem_cons_of_mem _ hm, hu⟩⟩

theorem firstOther_none_iff (cname : String) (uid : Nat) :
    ∀ cats : Categories,
      firstOtherCategory cname uid cats = none ↔
        ∀ p ∈ cats, p.1 ≠ cname → uid ∉ p.2.members := by
  intro cats
  induction cats with
  | nil => simp [firstOtherCategory]
  | cons p rest ih =>
    obtain ⟨n, c⟩ := p
    rw [firstOtherCategory]
    by_cases hc : uid ∈ c.members ∧ n ≠ cname
    · rw [if_pos hc]
      constructor
      · intro h
        cases h
      · intro h
        exact absurd hc.1 (h (n, c) (List.mem_cons_self _ _) hc.2)
    · rw [if_neg hc, ih]
      constructor
      · intro h q hq hq1
        rcases List.mem_cons.mp hq with e | m
        · subst e
          intro hu
          exact hc ⟨hu, hq1⟩
        · exact h q m hq1
      · intro h q hq hq1
        exact h q (List.mem_cons_of_mem _ hq) hq1

theorem firstOther_updateAt (cname : String) (uid : Nat) (f : Category → Category) :
    ∀ cats : Categories,
      firstOtherCategory cname uid (updateAt cname f cats) =
        firstOtherCategory cname uid cats := by
  intro cats
  induction cats with
  | nil => rfl
  | cons p rest ih =>
    obtain ⟨n, c⟩ := p
    rw [updateAt_cons]
    by_cases hn : n = cname
    · rw [if_pos hn, firstOtherCategory, firstOtherCategory,
        if_neg (fun hc => hc.2 hn), if_neg (fun hc => hc.2 hn), ih]
    · rw [if_neg hn, firstOtherCategory, firstOtherCategory]
      by_cases hc : uid ∈ c.members ∧ n ≠ cname
      · rw [if_pos hc, if_pos hc]
      · rw [if_neg hc, if_neg hc, ih]

theorem moveLoop_eq (cname : String) (uid : Nat) :
    ∀ cats : Categories, (cats.map Prod.fst).Nodup →
      moveLoop cname uid cats =
        match firstOtherCategory cname uid cats with
        | none => (false, cats)
        | some d => (true, eraseMemberFrom cats d uid) := by
  intro cats
  induction cats with
  | nil => intro _; rfl
  | cons p rest ih =>
    intro hkeys
    obtain ⟨n, c⟩ := p
    rw [List.map_cons, List.nodup_cons] at hkeys
    rw [moveLoop, firstOtherCategory]
    by_cases hc : uid ∈ c.members ∧ n ≠ cname
    · rw [if_pos hc, if_pos hc]
      unfold eraseMemberFrom
      dsimp only
      rw [updateAt_cons, if_pos rfl, updateAt_not_mem hkeys.1]
    · rw [if_neg hc, if_neg hc, ih hkeys.2]
      cases hfo : firstOtherCategory cname uid rest with
      | none => rfl
      | some d =>
        obtain ⟨hd1, hd2, -⟩ := firstOther_some cname uid d rest hfo
        have hnd : n ≠ d := by
          intro h
          exact hkeys.1 (by rw [h]; exact hd2)
        unfold eraseMemberFrom
        dsimp only
        rw [updateAt_cons, if_neg hnd]

/-! Bridging lemmas between the code's truthiness checks and the spec's
wording; they coincide on data-model-conforming values (capacity, when
set, is a positive integer; permitted_roles, when set, is nonempty). -/

theorem capIsFull_eq_spec {c : Category} (h : c.member_cap ≠ some 0) :
    capIsFull c = capReachedSpec c := by
  unfold capIsFull capReachedSpec
  cases hc : c.member_cap with
  | none => rfl
  | some k =>
    have hk : k ≠ 0 := by
      intro h0
      exact h (by rw [hc, h0])
    simp [hk]

theorem roleForbidden_eq_spec {permitted : Option (List Nat)}
    (h : permitted ≠ some []) (roles : List Nat) :
    roleForbidden permitted roles = roleForbiddenSpec permitted roles := by
  unfold roleForbidden roleForbiddenSpec
  cases hp : permitted with
  | none => rfl
  | some rs =>
    have hrs : rs ≠ [] := by
      intro h0
      exact h (by rw [hp, h0])
    simp [hrs]

theorem eraseMemberFrom_eq_setMembers {cats : Categories} {cname : String}
    {cat : Category} (hkeys : (cats.map Prod.fst).Nodup)
    (hfound : lookupCat cats cname = some cat) (uid : Nat) :
    eraseMemberFrom cats cname uid = setMembers cats cname (cat.members.erase uid) := by
  unfold eraseMemberFrom setMembers updateAt
  apply List.map_congr_left
  intro p hp
  by_cases hn : p.1 = cname
  · rw [if_pos hn, if_pos hn]
    have hp' : (cname, p.2) ∈ cats := by
      rw [show (cname, p.2) = p from by rw [← hn]]
      exact hp
    rw [keyInj hkeys hp' (lookupCat_mem hfound)]
  · rw [if_neg hn, if_neg hn]

/-! Branch-level characterizations of the enrollment transition. -/

theorem enroll_removed_case {cats : Categories} {cname : String} {cat : Category}
    (permitted : Option (List Nat)) (uid : Nat) (roles : List Nat)
    (hl : lookupCat cats cname = some cat) (hm : uid ∈ cat.members) :
    enroll cats permitted cname uid roles =
      .mutated .removed (eraseMemberFrom cats cname uid) := by
  unfold enroll
  simp only [hl]
  rw [if_pos hm]

theorem enroll_full_case {cats : Categories} {cname : String} {cat : Category}
    (permitted : Option (List Nat)) (uid : Nat) (roles : List Nat)
    (hkeys : (cats.map Prod.fst).Nodup) (hl : lookupCat cats cname = some cat)
    (hm : uid ∉ cat.members) (hf : capIsFull cat = true) :
    enroll cats permitted cname uid roles = .rejected .categoryFull := by
  unfold enroll
  simp only [hl]
  rw [if_neg hm, addLoop_eq cname cat uid roles permitted cats hkeys hl, if_pos hf]

theorem enroll_forbidden_case {cats : Categories} {cname : String} {cat : Category}
    (permitted : Option (List Nat)) (uid : Nat) (roles : List Nat)
    (hkeys : (cats.map Prod.fst).Nodup) (hl : lookupCat cats cname = some cat)
    (hm : uid ∉ cat.members) (hf : capIsFull cat = false)
    (hr : roleForbidden permitted roles = true) :
    enroll cats permitted cname uid roles = .rejected .forbidden := by
  unfold enroll
  simp only [hl]
  rw [if_neg hm, addLoop_eq cname cat uid roles permitted cats hkeys hl,
    if_neg (by rw [hf]; exact Bool.false_ne_true), if_pos hr]

theorem enroll_add_case {cats : Categories} {cname : String} {cat : Category}
    (permitted : Option (List Nat)) (uid : Nat) (roles : List Nat)
    (hkeys : (cats.map Prod.fst).Nodup) (hl : lookupCat cats cname = some cat)
    (hm : uid ∉ cat.members) (hf : capIsFull cat = false)
    (hr : roleForbidden permitted roles = false) :
    enroll cats permitted cname uid roles =
      match firstOtherCategory cname uid cats with
      | none => .mutated .added (setMembers cats cname (cat.members ++ [uid]))
      | some d =>
        .mutated .moved
          (eraseMemberFrom (setMembers cats cname (cat.members ++ [uid])) d uid) := by
  unfold enroll
  simp only [hl]
  rw [if_neg hm, addLoop_eq cname cat uid roles permitted cats hkeys hl,
    if_neg (by rw [hf]; exact Bool.false_ne_true),
    if_neg (by rw [hr]; exact Bool.false_ne_true)]
  have hkeys1 : ((setMembers cats cname (cat.members ++ [uid])).map Prod.fst).Nodup := by
    unfold setMembers
    rw [updateAt_keys]
    exact hkeys
  simp only [moveLoop_eq cname uid _ hkeys1]
  have hfo : firstOtherCategory cname uid (setMembers cats cname (cat.members ++ [uid]))
      = firstOtherCategory cname uid cats := firstOther_updateAt cname uid _ cats
  rw [hfo]
  cases hx : firstOtherCategory cname uid cats with
  | none => rfl
  | some d => rfl

/-- Claim C2: for every event state whose capacity fields are positive when
set and whose permitted-role list is nonempty when set (the data model of
spec section 3), the code's enrollment transition follows exactly the
spec's decision order — (1) if the user is already a member of the clicked
category they are removed (`removed`), regardless of roles; (2) else a full
category rejects with CategoryFull and mutates nothing; (3) else a failed
role check rejects with Forbidden and mutates nothing; (4) else the user is
added, with outcome `moved` (and removal from the other category) exactly
when they were a member of another category, else `added`.  Stated as
equality with `enrollSpec`, the transition written from the spec's words. -/
theorem enroll_matches_spec_transition (cats : Categories)
    (permitted : Option (List Nat)) (cname : String) (uid : Nat) (roles : List Nat)
    (hkeys : (cats.map Prod.fst).Nodup)
    (hcaps : ∀ p ∈ cats, p.2.member_cap ≠ some 0)
    (hperm : permitted ≠ some []) :
    enroll cats permitted cname uid roles = enrollSpec cats permitted cname uid roles := by
  cases hl : lookupCat cats cname with
  | none =>
    unfold enroll enrollSpec
    simp only [hl]
  | some cat =>
    have hcat0 : cat.member_cap ≠ some 0 := hcaps (cname, cat) (lookupCat_mem hl)
    by_cases hm : uid ∈ cat.members
    · rw [enroll_removed_case permitted uid roles hl hm,
        eraseMemberFrom_eq_setMembers hkeys hl uid]
      unfold enrollSpec
      simp only [hl]
      rw [if_pos hm]
    · by_cases hf : capIsFull cat
      · rw [enroll_full_case permitted uid roles hkeys hl hm hf]
        unfold enrollSpec
        simp only [hl]
        rw [if_neg hm, if_pos (show capReachedSpec cat = true by
          rw [← capIsFull_eq_spec hcat0]; exact hf)]
      · have hf' : capIsFull cat = false := by simpa using hf
        have hfspec : ¬ capReachedSpec cat = true := by
          rw [← capIsFull_eq_spec hcat0]
          exact hf
        by_cases hr : roleForbidden permitted roles
        · rw [enroll_forbidden_case permitted uid roles hkeys hl hm hf' hr]
          unfold enrollSpec
          simp only [hl]
          rw [if_neg hm, if_neg hfspec, if_pos (show roleForbiddenSpec permitted roles = true by
            rw [← roleForbidden_eq_spec hperm]; exact hr)]
        · have hr' : roleForbidden permitted roles = false := by simpa using hr
          have hrspec : ¬ roleForbiddenSpec permitted roles = true := by
            rw [← roleForbidden_eq_spec hperm]
            exact hr
          rw [enroll_add_case permitted uid roles hkeys hl hm hf' hr']
          unfold enrollSpec
          simp only [hl]
          rw [if_neg hm, if_neg hfspec, if_neg hrspec]
          cases firstOtherCategory cname uid cats <;> rfl

/-- Witness for C2: a concrete two-category event; user 22 (a member of
Blue) clicking Red with a permitted role moves categories, and the code
transition agrees with the spec transition there. -/
theorem enroll_matches_spec_transition_witness :
    ((demoCats.map Prod.fst).Nodup ∧ (∀ p ∈ demoCats, p.2.member_cap ≠ some 0) ∧
      (some [5] : Option (List Nat)) ≠ some []) ∧
    enroll demoCats (some [5]) ("Red") 22 [5] =
      enrollSpec demoCats (some [5]) ("Red") 22 [5] :=
  ⟨⟨by decide, by decide, by decide⟩,
    enroll_matches_spec_transition demoCats (some [5]) ("Red") 22 [5]
      (by decide) (by decide) (by decide)⟩

/-! Invariant machinery for claim C3. -/

theorem capacityInvariant_iff (cats : Categories) :
    capacityInvariant cats = true ↔
      ∀ p ∈ cats, ∀ k, p.2.member_cap = some k → p.2.members.length ≤ k := by
  unfold capacityInvariant
  rw [List.all_eq_true]
  constructor
  · intro h p hp k hk
    have h' := h p hp
    rw [hk] at h'
    simpa using h'
  · intro h p hp
    cases hc : p.2.member_cap with
    | none => rfl
    | some k => simpa using h p hp k hc

theorem crossUniqueInvariant_iff (cats : Categories) :
    crossUniqueInvariant cats = true ↔
      ∀ p ∈ cats, ∀ q ∈ cats, ∀ u ∈ p.2.members, u ∈ q.2.members → p.1 = q.1 := by
  unfold crossUniqueInvariant
  exact decide_eq_true_iff

theorem membersNodupInvariant_iff (cats : Categories) :
    membersNodupInvariant cats = true ↔ ∀ p ∈ cats, p.2.members.Nodup := by
  unfold membersNodupInvariant
  rw [List.all_eq_true]
  constructor
  · intro h p hp
    simpa using h p hp
  · intro h p hp
    simpa using h p hp

theorem mem_updateAt_cases {key : String} {f : Category → Category}
    {cats : Categories} {p' : String × Category} (h : p' ∈ updateAt key f cats) :
    ∃ p ∈ cats, p'.1 = p.1 ∧
      ((p.1 ≠ key ∧ p' = p) ∨ (p.1 = key ∧ p' = (p.1, f p.2))) := by
  unfold updateAt at h
  obtain ⟨p, hp, he⟩ := List.mem_map.mp h
  by_cases hk : p.1 = key
  · rw [if_pos hk] at he
    exact ⟨p, hp, by rw [← he], Or.inr ⟨hk, he.symm⟩⟩
  · rw [if_neg hk] at he
    exact ⟨p, hp, by rw [← he], Or.inl ⟨hk, he.symm⟩⟩

theorem snd_eq_of_fst_eq {cats : Categories} (hkeys : (cats.map Prod.fst).Nodup)
    {p : String × Category} (hp : p ∈ cats) {cname : String} {cat : Category}
    (hn : p.1 = cname) (hl : lookupCat cats cname = some cat) : p.2 = cat := by
  have hp' : (cname, p.2) ∈ cats := by
    rw [show (cname, p.2) = p from by rw [← hn]]
    exact hp
  exact keyInj hkeys hp' (lookupCat_mem hl)
theorem invariants_afterErase (cats : Categories) (dname : String) (uid : Nat)
    (hcap : ∀ p ∈ cats, ∀ k, p.2.member_cap = some k → p.2.members.length ≤ k)
    (hx : ∀ p ∈ cats, ∀ q ∈ cats, ∀ u ∈ p.2.members, u ∈ q.2.members → p.1 = q.1)
    (hnd : ∀ p ∈ cats, p.2.members.Nodup) :
    (∀ p ∈ eraseMemberFrom cats dname uid, ∀ k, p.2.member_cap = some k →
      p.2.members.length ≤ k) ∧
    (∀ p ∈ eraseMemberFrom cats dname uid, ∀ q ∈ eraseMemberFrom cats dname uid,
      ∀ u ∈ p.2.members, u ∈ q.2.members → p.1 = q.1) ∧
    (∀ p ∈ eraseMemberFrom cats dname uid, p.2.members.Nodup) := by
  have hdec : ∀ p' ∈ eraseMemberFrom cats dname uid, ∃ p ∈ cats, p'.1 = p.1 ∧
      p'.2.member_cap = p.2.member_cap ∧
      (p'.2.members = p.2.members ∨ p'.2.members = p.2.members.erase uid) := by
    intro p' h
    obtain ⟨p, hp, h1, hc⟩ := mem_updateAt_cases h
    rcases hc with ⟨-, he⟩ | ⟨-, he⟩
    · exact ⟨p, hp, by rw [he], by rw [he], Or.inl (by rw [he])⟩
    · exact ⟨p, hp, by rw [he], by rw [he], Or.inr (by rw [he])⟩
  refine ⟨?_, ?_, ?_⟩
  · intro p' h k hk
    obtain ⟨p, hp, -, h2, h3⟩ := hdec p' h
    have hlen : p'.2.members.length ≤ p.2.members.length := by
      rcases h3 with h3 | h3
      · rw [h3]
      · rw [h3]
        exact (List.erase_sublist _ _).length_le
    exact hlen.trans (hcap p hp k (by rw [← h2]; exact hk))
  · intro p' hp' q' hq' u hu1 hu2
    obtain ⟨p, hp, hp1, -, hp3⟩ := hdec p' hp'
    obtain ⟨q, hq, hq1, -, hq3⟩ := hdec q' hq'
    rw [hp1, hq1]
    refine hx p hp q hq u ?_ ?_
    · rcases hp3 with h | h
      · rw [h] at hu1
        exact hu1
      · rw [h] at hu1
        exact List.mem_of_mem_erase hu1
    · rcases hq3 with h | h
      · rw [h] at hu2
        exact hu2
      · rw [h] at hu2
        exact List.mem_of_mem_erase hu2
  · intro p' hp'
    obtain ⟨p, hp, -, -, h3⟩ := hdec p' hp'
    rcases h3 with h | h
    · rw [h]
      exact hnd p hp
    · rw [h]
      exact (hnd p hp).erase _

theorem invariants_afterAdd (cats : Categories) (cname : String) (uid : Nat)
    (cat : Category)
    (hkeys : (cats.map Prod.fst).Nodup) (hl : lookupCat cats cname = some cat)
    (hm : uid ∉ cat.members)
    (hlt : ∀ k, cat.member_cap = some k → cat.members.length < k)
    (hnone : ∀ p ∈ cats, p.1 ≠ cname → uid ∉ p.2.members)
    (hcap : ∀ p ∈ cats, ∀ k, p.2.member_cap = some k → p.2.members.length ≤ k)
    (hx : ∀ p ∈ cats, ∀ q ∈ cats, ∀ u ∈ p.2.members, u ∈ q.2.members → p.1 = q.1)
    (hnd : ∀ p ∈ cats, p.2.members.Nodup) :
    (∀ p ∈ setMembers cats cname (cat.members ++ [uid]), ∀ k,
      p.2.member_cap = some k → p.2.members.length ≤ k) ∧
    (∀ p ∈ setMembers cats cname (cat.members ++ [uid]),
      ∀ q ∈ setMembers cats cname (cat.members ++ [uid]),
      ∀ u ∈ p.2.members, u ∈ q.2.members → p.1 = q.1) ∧
    (∀ p ∈ setMembers cats cname (cat.members ++ [uid]), p.2.members.Nodup) := by
  have hcatmem : (cname, cat) ∈ cats := lookupCat_mem hl
  have hdec : ∀ p' ∈ setMembers cats cname (cat.members ++ [uid]), ∃ p ∈ cats,
      p'.1 = p.1 ∧ ((p.1 ≠ cname ∧ p' = p) ∨
        (p.1 = cname ∧ p'.2.member_cap = cat.member_cap ∧
          p'.2.members = cat.members ++ [uid])) := by
    intro p' h
    obtain ⟨p, hp, h1, hc⟩ := mem_updateAt_cases h
    rcases hc with ⟨hk, he⟩ | ⟨hk, he⟩
    · exact ⟨p, hp, h1, Or.inl ⟨hk, he⟩⟩
    · have h2 := snd_eq_of_fst_eq hkeys hp hk hl
      refine ⟨p, hp, h1, Or.inr ⟨hk, ?_, ?_⟩⟩
      · rw [he, h2]
      · rw [he]
  have hmemcases : ∀ p' ∈ setMembers cats cname (cat.members ++ [uid]),
      ∀ u ∈ p'.2.members, ∃ p ∈ cats, p'.1 = p.1 ∧
        ((p.1 ≠ cname ∧ u ∈ p.2.members) ∨ (p.1 = cname ∧ u ∈ cat.members) ∨
          (p.1 = cname ∧ u = uid)) := by
    intro p' hp' u hu
    obtain ⟨p, hp, h1, hc⟩ := hdec p' hp'
    rcases hc with ⟨hk, he⟩ | ⟨hk, h2, h3⟩
    · rw [he] at hu
      exact ⟨p, hp, h1, Or.inl ⟨hk, hu⟩⟩
    · rw [h3] at hu
      rcases List.mem_append.mp hu with h | h
      · exact ⟨p, hp, h1, Or.inr (Or.inl ⟨hk, h⟩)⟩
      · exact ⟨p, hp, h1, Or.inr (Or.inr ⟨hk, List.mem_singleton.mp h⟩)⟩
  refine ⟨?_, ?_, ?_⟩
  · intro p' h k hk
    obtain ⟨p, hp, -, hc⟩ := hdec p' h
    rcases hc with ⟨-, he⟩ | ⟨-, h2, h3⟩
    · rw [he]
      exact hcap p hp k (by rw [← he]; exact hk)
    · rw [h3, List.length_append]
      have := hlt k (by rw [← h2]; exact hk)
      simp only [List.length_singleton]
      omega
  · intro p' hp' q' hq' u hu1 hu2
    obtain ⟨p, hp, hp1, hpc⟩ := hmemcases p' hp' u hu1
    obtain ⟨q, hq, hq1, hqc⟩ := hmemcases q' hq' u hu2
    rw [hp1, hq1]
    rcases hpc with ⟨hpn, hpm⟩ | ⟨hpn, hpm⟩ | ⟨hpn, hpm⟩ <;>
      rcases hqc with ⟨hqn, hqm⟩ | ⟨hqn, hqm⟩ | ⟨hqn, hqm⟩
    · exact hx p hp q hq u hpm hqm
    · rw [hqn]
      exact hx p hp (cname, cat) hcatmem u hpm hqm
    · subst hqm
      exact absurd hpm (hnone p hp hpn)
    · rw [hpn]
      exact (hx q hq (cname, cat) hcatmem u hqm hpm).symm
    · rw [hpn, hqn]
    · rw [hpn, hqn]
    · subst hpm
      exact absurd hqm (hnone q hq hqn)
    · rw [hpn, hqn]
    · rw [hpn, hqn]
  · intro p' hp'
    obtain ⟨p, hp, -, hc⟩ := hdec p' hp'
    rcases hc with ⟨-, he⟩ | ⟨-, -, h3⟩
    · rw [he]
      exact hnd p hp
    · rw [h3, List.nodup_append]
      exact ⟨hnd (cname, cat) hcatmem, List.nodup_singleton _,
        List.disjoint_singleton.mpr hm⟩

theorem invariants_afterMove (cats : Categories) (cname : String) (uid : Nat)
    (cat : Category) (d : String) (dcat : Category)
    (hkeys : (cats.map Prod.fst).Nodup) (hl : lookupCat cats cname = some cat)
    (hm : uid ∉ cat.members)
    (hlt : ∀ k, cat.member_cap = some k → cat.members.length < k)
    (hdne : d ≠ cname) (hd : (d, dcat) ∈ cats) (hdu : uid ∈ dcat.members)
    (hcap : ∀ p ∈ cats, ∀ k, p.2.member_cap = some k → p.2.members.length ≤ k)
    (hx : ∀ p ∈ cats, ∀ q ∈ cats, ∀ u ∈ p.2.members, u ∈ q.2.members → p.1 = q.1)
    (hnd : ∀ p ∈ cats, p.2.members.Nodup) :
    (∀ p ∈ eraseMemberFrom (setMembers cats cname (cat.members ++ [uid])) d uid,
      ∀ k, p.2.member_cap = some k → p.2.members.length ≤ k) ∧
    (∀ p ∈ eraseMemberFrom (setMembers cats cname (cat.members ++ [uid])) d uid,
      ∀ q ∈ eraseMemberFrom (setMembers cats cname (cat.members ++ [uid])) d uid,
      ∀ u ∈ p.2.members, u ∈ q.2.members → p.1 = q.1) ∧
    (∀ p ∈ eraseMemberFrom (setMembers cats cname (cat.members ++ [uid])) d uid,
      p.2.members.Nodup) := by
  have hcatmem : (cname, cat) ∈ cats := lookupCat_mem hl
  have hdnd : dcat.members.Nodup := hnd (d, dcat) hd
  have hdec : ∀ p' ∈ eraseMemberFrom (setMembers cats cname (cat.members ++ [uid])) d uid,
      ∃ p ∈ cats, p'.1 = p.1 ∧
        ((p.1 ≠ cname ∧ p.1 ≠ d ∧ p' = p) ∨
          (p.1 = cname ∧ p'.2.member_cap = cat.member_cap ∧
            p'.2.members = cat.members ++ [uid]) ∨
          (p.1 = d ∧ p'.2.member_cap = dcat.member_cap ∧
            p'.2.members = dcat.members.erase uid)) := by
    intro p' h
    obtain ⟨q, hq, hq1, hqc⟩ := mem_updateAt_cases h
    obtain ⟨p, hp, hp1, hpc⟩ := mem_updateAt_cases hq
    rcases hpc with ⟨hpk, hpe⟩ | ⟨hpk, hpe⟩
    · rcases hqc with ⟨hqk, hqe⟩ | ⟨hqk, hqe⟩
      · refine ⟨p, hp, by rw [hq1, hp1], Or.inl ⟨hpk, ?_, ?_⟩⟩
        · rw [← hp1]
          exact hqk
        · rw [hqe, hpe]
      · have hpd : p.1 = d := by rw [← hp1]; exact hqk
        have h2 : p.2 = dcat := by
          have hp' : (d, p.2) ∈ cats := by
            rw [show (d, p.2) = p from by rw [← hpd]]
            exact hp
          exact keyInj hkeys hp' hd
        refine ⟨p, hp, by rw [hqe]; exact hp1, Or.inr (Or.inr ⟨hpd, ?_, ?_⟩)⟩
        · rw [hqe, hpe, h2]
        · rw [hqe, hpe, h2]
    · have h2 := snd_eq_of_fst_eq hkeys hp hpk hl
      rcases hqc with ⟨hqk, hqe⟩ | ⟨hqk, hqe⟩
      · refine ⟨p, hp, by rw [hq1, hp1], Or.inr (Or.inl ⟨hpk, ?_, ?_⟩)⟩
        · rw [hqe, hpe, h2]
        · rw [hqe, hpe]
      · have hqd : p.1 = d := by rw [← hp1]; exact hqk
        exact absurd (hqd.symm.trans hpk) (fun hh => hdne (hqd ▸ hpk ▸ rfl))
  have hmemcases : ∀ p' ∈ eraseMemberFrom (setMembers cats cname (cat.members ++ [uid])) d uid,
      ∀ u ∈ p'.2.members, ∃ p ∈ cats, p'.1 = p.1 ∧
        ((p.1 ≠ cname ∧ p.1 ≠ d ∧ u ∈ p.2.members) ∨
          (p.1 = cname ∧ u ∈ cat.members) ∨ (p.1 = cname ∧ u = uid) ∨
          (p.1 = d ∧ u ∈ dcat.members ∧ u ≠ uid)) := by
    intro p' hp' u hu
    obtain ⟨p, hp, h1, hc⟩ := hdec p' hp'
    rcases hc with ⟨hk1, hk2, he⟩ | ⟨hk, -, h3⟩ | ⟨hk, -, h3⟩
    · rw [he] at hu
      exact ⟨p, hp, h1, Or.inl ⟨hk1, hk2, hu⟩⟩
    · rw [h3] at hu
      rcases List.mem_append.mp hu with h | h
      · exact ⟨p, hp, h1, Or.inr (Or.inl ⟨hk, h⟩)⟩
      · exact ⟨p, hp, h1, Or.inr (Or.inr (Or.inl ⟨hk, List.mem_singleton.mp h⟩))⟩
    · rw [h3] at hu
      have hme := (hdnd.mem_erase_iff).mp hu
      exact ⟨p, hp, h1, Or.inr (Or.inr (Or.inr ⟨hk, hme.2, hme.1⟩))⟩
  refine ⟨?_, ?_, ?_⟩
  · intro p' h k hk
    obtain ⟨p, hp, -, hc⟩ := hdec p' h
    rcases hc with ⟨-, -, he⟩ | ⟨-, h2, h3⟩ | ⟨-, h2, h3⟩
    · rw [he]
      exact hcap p hp k (by rw [← he]; exact hk)
    · rw [h3, List.length_append]
      have := hlt k (by rw [← h2]; exact hk)
      simp only [List.length_singleton]
      omega
    · rw [h3]
      exact ((List.erase_sublist _ _).length_le).trans
        (hcap (d, dcat) hd k (by rw [← h2]; exact hk))
  · intro p' hp' q' hq' u hu1 hu2
    obtain ⟨p, hp, hp1, hpc⟩ := hmemcases p' hp' u hu1
    obtain ⟨q, hq, hq1, hqc⟩ := hmemcases q' hq' u hu2
    rw [hp1, hq1]
    rcases hpc with ⟨hpn1, hpn2, hpm⟩ | ⟨hpn, hpm⟩ | ⟨hpn, hpm⟩ | ⟨hpn, hpm, hpu⟩ <;>
      rcases hqc with ⟨hqn1, hqn2, hqm⟩ | ⟨hqn, hqm⟩ | ⟨hqn, hqm⟩ | ⟨hqn, hqm, hqu⟩
    · exact hx p hp q hq u hpm hqm
    · rw [hqn]
      exact hx p hp (cname, cat) hcatmem u hpm hqm
    · subst hqm
      exact absurd (hx p hp (d, dcat) hd u hpm hdu) hpn2
    · rw [hqn]
      exact hx p hp (d, dcat) hd u hpm hqm
    · rw [hpn]
      exact (hx q hq (cname, cat) hcatmem u hqm hpm).symm
    · rw [hpn, hqn]
    · rw [hpn, hqn]
    · exact absurd (hx (cname, cat) hcatmem (d, dcat) hd u hpm hqm)
        (fun hh => hdne hh.symm)
    · subst hpm
      exact absurd (hx q hq (d, dcat) hd u hqm hdu) hqn2
    · subst hpm
      exact absurd hqm hm
    · rw [hpn, hqn]
    · subst hpm
      exact absurd rfl hqu
    · rw [hpn]
      exact (hx q hq (d, dcat) hd u hqm hpm).symm
    · exact absurd (hx (cname, cat) hcatmem (d, dcat) hd u hqm hpm).symm
        (fun hh => hdne hh)
    · subst hqm
      exact absurd rfl hpu
    · rw [hpn, hqn]
  · intro p' hp'
    obtain ⟨p, hp, -, hc⟩ := hdec p' hp'
    rcases hc with ⟨-, -, he⟩ | ⟨-, -, h3⟩ | ⟨-, -, h3⟩
    · rw [he]
      exact hnd p hp
    · rw [h3, List.nodup_append]
      exact ⟨hnd (cname, cat) hcatmem, List.nodup_singleton _,
        List.disjoint_singleton.mpr hm⟩
    · rw [h3]
      exact hdnd.erase _

/-- Claim C3: for every event state satisfying the data-model invariants of
spec section 3 — unique category keys, positive capacities where set, each
capacity respected, cross-category uniqueness, and duplicate-free member
lists — a single successful (state-mutating) Enroll call returns a state
that still satisfies the capacity, cross-category-uniqueness and
no-duplicates invariants. -/
theorem enroll_preserves_invariants (cats newCats : Categories)
    (permitted : Option (List Nat)) (cname : String) (uid : Nat)
    (roles : List Nat) (o : Outcome)
    (hkeys : (cats.map Prod.fst).Nodup)
    (hcaps : ∀ p ∈ cats, p.2.member_cap ≠ some 0)
    (hcap : capacityInvariant cats = true)
    (hx : crossUniqueInvariant cats = true)
    (hnd : membersNodupInvariant cats = true)
    (h : enroll cats permitted cname uid roles = .mutated o newCats) :
    capacityInvariant newCats = true ∧ crossUniqueInvariant newCats = true ∧
      membersNodupInvariant newCats = true := by
  rw [capacityInvariant_iff] at hcap
  rw [crossUniqueInvariant_iff] at hx
  rw [membersNodupInvariant_iff] at hnd
  rw [capacityInvariant_iff, crossUniqueInvariant_iff, membersNodupInvariant_iff]
  cases hl : lookupCat cats cname with
  | none =>
    unfold enroll at h
    simp only [hl] at h
    exact absurd h (by simp)
  | some cat =>
    by_cases hm : uid ∈ cat.members
    · rw [enroll_removed_case permitted uid roles hl hm] at h
      injection h with ho hnew
      subst hnew
      exact invariants_afterErase cats cname uid hcap hx hnd
    · by_cases hf : capIsFull cat
      · rw [enroll_full_case permitted uid roles hkeys hl hm hf] at h
        exact absurd h (by simp)
      · have hf' : capIsFull cat = false := by simpa using hf
        by_cases hr : roleForbidden permitted roles
        · rw [enroll_forbidden_case permitted uid roles hkeys hl hm hf' hr] at h
          exact absurd h (by simp)
        · have hr' : roleForbidden permitted roles = false := by simpa using hr
          have hcat0 : cat.member_cap ≠ some 0 := hcaps (cname, cat) (lookupCat_mem hl)
          have hlt : ∀ k, cat.member_cap = some k → cat.members.length < k := by
            intro k hk
            have h0 : k ≠ 0 := by
              intro h0
              exact hcat0 (by rw [hk, h0])
            unfold capIsFull at hf'
            rw [hk] at hf'
            simp [h0] at hf'
            omega
          rw [enroll_add_case permitted uid roles hkeys hl hm hf' hr'] at h
          cases hfo : firstOtherCategory cname uid cats with
          | none =>
            simp only [hfo] at h
            injection h with ho hnew
            subst hnew
            exact invariants_afterAdd cats cname uid cat hkeys hl hm hlt
              ((firstOther_none_iff cname uid cats).mp hfo) hcap hx hnd
          | some d =>
            simp only [hfo] at h
            injection h with ho hnew
            subst hnew
            obtain ⟨hdne, -, dcat, hd, hdu⟩ := firstOther_some cname uid d cats hfo
            exact invariants_afterMove cats cname uid cat d dcat hkeys hl hm hlt
              hdne hd hdu hcap hx hnd

/-- Witness for C3: the concrete moved-enrollment of user 22 from Blue to
Red on the sample event keeps all three invariants. -/
theorem enroll_preserves_invariants_witness :
    ((demoCats.map Prod.fst).Nodup ∧ (∀ p ∈ demoCats, p.2.member_cap ≠ some 0) ∧
      capacityInvariant demoCats = true ∧ crossUniqueInvariant demoCats = true ∧
      membersNodupInvariant demoCats = true ∧
      enroll demoCats none ("Red") 22 [] = .mutated .moved
        [(("Red"), demoCat (some 2) [11, 22]), (("Blue"), demoCat none [])]) ∧
    (capacityInvariant
        [(("Red"), demoCat (some 2) [11, 22]), (("Blue"), demoCat none [])] = true ∧
      crossUniqueInvariant
        [(("Red"), demoCat (some 2) [11, 22]), (("Blue"), demoCat none [])] = true ∧
      membersNodupInvariant
        [(("Red"), demoCat (some 2) [11, 22]), (("Blue"), demoCat none [])] = true) :=
  ⟨⟨by decide, by decide, by decide, by decide, by decide, by decide⟩,
    enroll_preserves_invariants demoCats
      [(("Red"), demoCat (some 2) [11, 22]), (("Blue"), demoCat none [])]
      none ("Red") 22 [] .moved
      (by decide) (by decide) (by decide) (by decide) (by decide) (by decide)⟩


theorem updateAt_updateAt (key : String) (f g : Category → Category) :
    ∀ cats : Categories,
      updateAt key g (updateAt key f cats) = updateAt key (fun c => g (f c)) cats := by
  intro cats
  induction cats with
  | nil => rfl
  | cons p rest ih =>
    obtain ⟨n, c⟩ := p
    by_cases hn : n = key
    · rw [updateAt_cons, if_pos hn, updateAt_cons, if_pos hn, updateAt_cons,
        if_pos hn, ih]
    · rw [updateAt_cons, if_neg hn, updateAt_cons, if_neg hn, updateAt_cons,
        if_neg hn, ih]

theorem updateAt_id_of {key : String} {f : Category → Category} {cats : Categories}
    {cat : Category} (hkeys : (cats.map Prod.fst).Nodup)
    (hl : lookupCat cats key = some cat) (h : f cat = cat) :
    updateAt key f cats = cats := by
  unfold updateAt
  have hpt : ∀ p ∈ cats, (if p.1 = key then (p.1, f p.2) else p) = id p := by
    intro p hp
    by_cases hpk : p.1 = key
    · have h2 := snd_eq_of_fst_eq hkeys hp hpk hl
      rw [if_pos hpk, h2, h, ← h2]
      rfl
    · rw [if_neg hpk]
      rfl
  rw [List.map_congr_left hpt, List.map_id]

/-- Claim C4: for a category with available capacity and a user enrolled in
no category of the event who passes the role check, clicking the category
twice in a row yields outcome `added` then outcome `removed`, and the final
membership state of every category equals the state before the first
click. -/
theorem enroll_toggle_roundtrip (cats : Categories) (permitted : Option (List Nat))
    (cname : String) (uid : Nat) (roles : List Nat) (cat : Category)
    (hkeys : (cats.map Prod.fst).Nodup)
    (hl : lookupCat cats cname = some cat)
    (hnotin : ∀ p ∈ cats, uid ∉ p.2.members)
    (hf : capIsFull cat = false)
    (hr : roleForbidden permitted roles = false) :
    enroll cats permitted cname uid roles =
      .mutated .added (setMembers cats cname (cat.members ++ [uid])) ∧
    enroll (setMembers cats cname (cat.members ++ [uid])) permitted cname uid roles =
      .mutated .removed cats := by
  have hm : uid ∉ cat.members := hnotin (cname, cat) (lookupCat_mem hl)
  have hfo : firstOtherCategory cname uid cats = none :=
    (firstOther_none_iff cname uid cats).mpr (fun p hp _ => hnotin p hp)
  have herase : (cat.members ++ [uid]).erase uid = cat.members := by
    rw [List.erase_append_right _ hm]
    simp
  constructor
  · rw [enroll_add_case permitted uid roles hkeys hl hm hf hr]
    simp only [hfo]
  · have hl1 : lookupCat (setMembers cats cname (cat.members ++ [uid])) cname =
        some { cat with members := cat.members ++ [uid] } := by
      unfold setMembers
      rw [lookupCat_updateAt_self, hl]
      rfl
    have hm1 : uid ∈ ({ cat with members := cat.members ++ [uid] } : Category).members := by
      simp
    rw [enroll_removed_case permitted uid roles hl1 hm1]
    unfold eraseMemberFrom setMembers
    rw [updateAt_updateAt]
    rw [updateAt_id_of hkeys hl (show ({ cat with members := (cat.members ++ [uid]).erase uid } : Category) = cat by rw [herase])]

/-- Witness for C4: user 33, unenrolled anywhere, clicks Red twice on the
sample event; outcomes are `added` then `removed` and the state returns to
the original. -/
theorem enroll_toggle_roundtrip_witness :
    ((demoCats.map Prod.fst).Nodup ∧
      lookupCat demoCats ("Red") = some (demoCat (some 2) [11]) ∧
      (∀ p ∈ demoCats, 33 ∉ p.2.members) ∧
      capIsFull (demoCat (some 2) [11]) = false ∧
      roleForbidden none [] = false) ∧
    (enroll demoCats none ("Red") 33 [] =
        .mutated .added (setMembers demoCats ("Red") ([11] ++ [33])) ∧
      enroll (setMembers demoCats ("Red") ([11] ++ [33])) none ("Red") 33 [] =
        .mutated .removed demoCats) :=
  ⟨⟨by decide, by decide, by decide, by decide, by decide⟩,
    enroll_toggle_roundtrip demoCats none ("Red") 33 [] (demoCat (some 2) [11])
      (by decide) (by decide) (by decide) (by decide) (by decide)⟩


/-- Claim C1, counterexample: the callback takes no lock, so two clicks on a
capacity-1 category may both read the same empty snapshot before either
write-back runs (reads happen at events.py line 51, the write at line 87,
with awaits in between).  Under the schedule read-0, read-1, write-0,
write-1 with N = 2 distinct users and k = 1, BOTH tasks report `added`
(2 additions, 0 CategoryFull rejections, instead of the claimed exactly
k = 1 addition and N - k = 1 rejection), and the final store holds only
user 2: user 1's admission was overwritten — a lost update and a
double-admission of outcomes. -/
theorem concurrent_enroll_lost_update :
    crun [⟨1, []⟩, ⟨2, []⟩] none ("Red") [(("Red"), demoCat (some 1) [])]
        [.readSnap 0, .readSnap 1, .writeBack 0, .writeBack 1] =
      { store := [(("Red"), demoCat (some 1) [2])]
        snaps := [some [(("Red"), demoCat (some 1) [])],
          some [(("Red"), demoCat (some 1) [])]]
        results := [some (.mutated .added [(("Red"), demoCat (some 1) [1])]),
          some (.mutated .added [(("Red"), demoCat (some 1) [2])])] } ∧
    countAdded [.mutated .added [(("Red"), demoCat (some 1) [1])],
        .mutated .added [(("Red"), demoCat (some 1) [2])]] = 2 ∧
    countFullRejections [.mutated .added [(("Red"), demoCat (some 1) [1])],
        .mutated .added [(("Red"), demoCat (some 1) [2])]] = 0 := by
  decide

theorem enroll_single_cat_step (e l st cname : String) (k : Nat) (ms : List Nat)
    (u : Nat) (hu : u ∉ ms) (hk : k ≠ 0) :
    enroll [(cname, ⟨e, l, st, some k, ms⟩)] none cname u [] =
      if k ≤ ms.length then .rejected .categoryFull
      else .mutated .added [(cname, ⟨e, l, st, some k, ms ++ [u]⟩)] := by
  have hl : lookupCat [(cname, (⟨e, l, st, some k, ms⟩ : Category))] cname =
      some ⟨e, l, st, some k, ms⟩ := by
    simp [lookupCat]
  by_cases hfull : k ≤ ms.length
  · have hf : capIsFull ⟨e, l, st, some k, ms⟩ = true := by
      simp [capIsFull, hk, hfull]
    rw [enroll_full_case none u [] (by simp) hl hu hf, if_pos hfull]
  · have hf : capIsFull ⟨e, l, st, some k, ms⟩ = false := by
      simp [capIsFull, hfull]
    have hr : roleForbidden none [] = false := rfl
    rw [enroll_add_case none u [] (by simp) hl hu hf hr]
    have hfo : firstOtherCategory cname u
        [(cname, (⟨e, l, st, some k, ms⟩ : Category))] = none := by
      simp [firstOtherCategory]
    simp only [hfo]
    rw [if_neg hfull]
    unfold setMembers
    rw [updateAt_cons, if_pos rfl]
    rfl

theorem serial_single_general (e l st cname : String) (k : Nat) (hk : k ≠ 0) :
    ∀ us ms : List Nat, us.Nodup → (∀ u ∈ us, u ∉ ms) →
      countAdded (serialResults [(cname, ⟨e, l, st, some k, ms⟩)] none cname [] us).1 =
          min us.length (k - ms.length) ∧
        countFullRejections
            (serialResults [(cname, ⟨e, l, st, some k, ms⟩)] none cname [] us).1 =
          us.length - min us.length (k - ms.length) ∧
        (serialResults [(cname, ⟨e, l, st, some k, ms⟩)] none cname [] us).2 =
          [(cname, ⟨e, l, st, some k, ms ++ us.take (k - ms.length)⟩)] := by
  intro us
  induction us with
  | nil =>
    intro ms _ _
    refine ⟨by simp [serialResults, countAdded], by simp [serialResults, countFullRejections], ?_⟩
    simp [serialResults]
  | cons u us ih =>
    intro ms hnd hdis
    have hu : u ∉ ms := hdis u (List.mem_cons_self _ _)
    have hnd' : us.Nodup := (List.nodup_cons.mp hnd).2
    have hun : u ∉ us := (List.nodup_cons.mp hnd).1
    have hstep := enroll_single_cat_step e l st cname k ms u hu hk
    by_cases hfull : k ≤ ms.length
    · rw [if_pos hfull] at hstep
      have hunf : serialResults [(cname, ⟨e, l, st, some k, ms⟩)] none cname [] (u :: us) =
          (ClickResult.rejected .categoryFull ::
              (serialResults [(cname, ⟨e, l, st, some k, ms⟩)] none cname [] us).1,
            (serialResults [(cname, ⟨e, l, st, some k, ms⟩)] none cname [] us).2) := by
        simp only [serialResults, hstep]
      obtain ⟨ha, hf2, hfin⟩ := ih ms hnd' (fun v hv => hdis v (List.mem_cons_of_mem _ hv))
      have h0 : k - ms.length = 0 := Nat.sub_eq_zero_of_le hfull
      rw [hunf]
      refine ⟨?_, ?_, ?_⟩
      · simp [countAdded, List.countP_cons] at ha ⊢
        omega
      · simp [countFullRejections, List.countP_cons] at hf2 ⊢
        omega
      · rw [hfin, h0]
        simp
    · rw [if_neg hfull] at hstep
      have hunf : serialResults [(cname, ⟨e, l, st, some k, ms⟩)] none cname [] (u :: us) =
          (ClickResult.mutated .added [(cname, ⟨e, l, st, some k, ms ++ [u]⟩)] ::
              (serialResults [(cname, ⟨e, l, st, some k, ms ++ [u]⟩)] none cname [] us).1,
            (serialResults [(cname, ⟨e, l, st, some k, ms ++ [u]⟩)] none cname [] us).2) := by
        simp only [serialResults, hstep]
      have hdis' : ∀ v ∈ us, v ∉ ms ++ [u] := by
        intro v hv
        rw [List.mem_append, List.mem_singleton]
        push_neg
        exact ⟨hdis v (List.mem_cons_of_mem _ hv), fun he => hun (he ▸ hv)⟩
      obtain ⟨ha, hf2, hfin⟩ := ih (ms ++ [u]) hnd' hdis'
      simp only [List.length_append, List.length_singleton] at ha hf2 hfin
      have hd : k - ms.length = (k - (ms.length + 1)) + 1 := by omega
      rw [hunf]
      refine ⟨?_, ?_, ?_⟩
      · simp [countAdded, List.countP_cons] at ha ⊢
        omega
      · simp [countFullRejections, List.countP_cons] at hf2 ⊢
        omega
      · rw [hfin, hd, List.take_succ_cons]
        simp


/-- Claim C1 (amended): the code holds no per-event lock — the callback is a
read-modify-write over a cached snapshot whose read (events.py line 51) and
write-back (line 87) can interleave with other callbacks, permitting lost
updates (see the lost-update counterexample).  The claimed outcome holds
only for serial execution: when N Enroll calls by N distinct users against
a single category of capacity k (k > 0, N > k, initially empty, no role
restriction) run one after another, each completing its write-back before
the next call's read, they produce exactly k `added` outcomes and N - k
CategoryFull rejections, and the final membership is exactly the first k
users in arrival order. -/
theorem serial_enroll_capacity_exact (e l st cname : String) (k : Nat)
    (us : List Nat) (hk : 0 < k) (hnd : us.Nodup) (hN : k < us.length) :
    countAdded (serialResults [(cname, ⟨e, l, st, some k, []⟩)] none cname [] us).1 = k ∧
    countFullRejections
        (serialResults [(cname, ⟨e, l, st, some k, []⟩)] none cname [] us).1 =
      us.length - k ∧
    (serialResults [(cname, ⟨e, l, st, some k, []⟩)] none cname [] us).2 =
      [(cname, ⟨e, l, st, some k, us.take k⟩)] := by
  have h := serial_single_general e l st cname k (by omega) us [] hnd (by simp)
  simp only [List.length_nil, Nat.sub_zero, List.nil_append] at h
  have hmin : min us.length k = k := by omega
  rw [hmin] at h
  exact h

/-- Witness for C1's amended serial property: two users against a
capacity-1 category, run serially, give one `added`, one CategoryFull, and
a final roster of just the first user. -/
theorem serial_enroll_capacity_exact_witness :
    (0 < 1 ∧ ([7, 8] : List Nat).Nodup ∧ 1 < ([7, 8] : List Nat).length) ∧
    (countAdded (serialResults [(("Red"), ⟨("r"), ("Red"), ("Grey"), some 1, []⟩)]
          none ("Red") [] [7, 8]).1 = 1 ∧
      countFullRejections (serialResults [(("Red"), ⟨("r"), ("Red"), ("Grey"), some 1, []⟩)]
          none ("Red") [] [7, 8]).1 = ([7, 8] : List Nat).length - 1 ∧
      (serialResults [(("Red"), ⟨("r"), ("Red"), ("Grey"), some 1, []⟩)]
          none ("Red") [] [7, 8]).2 =
        [(("Red"), ⟨("r"), ("Red"), ("Grey"), some 1, ([7, 8] : List Nat).take 1⟩)]) :=
  ⟨⟨by decide, by decide, by decide⟩,
    serial_enroll_capacity_exact ("r") ("Red") ("Grey") ("Red") 1 [7, 8]
      (by decide) (by decide) (by decide)⟩


/-- Claim C5, counterexample: a click whose event row has vanished, and a
click whose category name is absent from the event, both end in an
unhandled exception (`.exn` — line 52 subscripts the empty cache result,
line 63 raises `KeyError`; nothing in the callback catches either), not in
a handled NotFound notice to the requester as the claim states. -/
theorem click_missing_event_unhandled :
    clickCallback none ("Red") 1 [] = .exn ∧
    clickCallback (some ⟨none, [(("Blue"), demoCat none [])]⟩) ("Red") 1 [] = .exn := by
  decide

/-- Claim C5 (amended): a click whose event record no longer exists, or
whose category name is absent from the event, makes the click handler raise
an unhandled exception (subscripting the empty cache result, or a KeyError
on the missing category); no state is mutated and no notice of any kind is
sent to the requester. -/
theorem click_missing_raises_exception (rec : EventRecord) (cname : String)
    (uid : Nat) (roles : List Nat) :
    clickCallback none cname uid roles = .exn ∧
    (lookupCat rec.categories cname = none →
      clickCallback (some rec) cname uid roles = .exn) := by
  constructor
  · rfl
  · intro h
    unfold clickCallback enroll
    simp only [h]

/-- Witness for C5's amended claim at a concrete empty event record. -/
theorem click_missing_raises_exception_witness :
    lookupCat ([] : Categories) ("Red") = none ∧
    clickCallback none ("Red") 1 [] = .exn ∧
    clickCallback (some { permitted_roles := none, categories := [] }) ("Red") 1 [] = .exn :=
  ⟨by decide, (click_missing_raises_exception ⟨none, []⟩ ("Red") 1 []).1,
    (click_missing_raises_exception ⟨none, []⟩ ("Red") 1 []).2 (by decide)⟩

/-- Claim C6: when the expiry timer fires for an event whose row is already
gone, the handler does NOT no-op — line 144 subscripts the empty cache
result inside a `try` that only catches `discord.NotFound`, so a TypeError
escapes (while guild and channel resolve).  Nothing is mutated.  The code
even guards the analogous lookup in `event_delete` (line 188) with
`if record:`, and spec section 6 assumes at-least-once timer delivery, so
the crash is a slip against the clear no-op intent. -/
theorem expiry_missing_record_raises (messageExists canPost : Bool)
    (title : String) (resolve : Nat → Bool) :
    on_event_timer_complete none true true messageExists canPost title resolve =
      { noEffects with raised := some .recordSubscript } := rfl

/-- Claim C7, counterexample: when the published message is already gone
(fetch raises NotFound, line 146 returns), the handler deletes nothing,
refreshes nothing and posts nothing — the event row survives, contradicting
the claim that the failure is ignored and deletion still happens. -/
theorem expiry_message_gone_no_delete :
    (on_event_timer_complete (some ⟨42, demoCats⟩) true true false true
        ("Party") (fun _ => true)).rowDeleted = false ∧
    (on_event_timer_complete (some ⟨42, demoCats⟩) true true false true
        ("Party") (fun _ => true)).cacheRefreshed = false ∧
    (on_event_timer_complete (some ⟨42, demoCats⟩) true true false true
        ("Party") (fun _ => true)).summaryPosted = false ∧
    (on_event_timer_complete (some ⟨42, demoCats⟩) true true false true
        ("Party") (fun _ => true)).raised = none := by
  decide

/-- Claim C7 (amended): stripping the controls is not best-effort — if the
published message no longer exists the handler returns early, leaving the
event row undeleted, the cache untouched, and posting no summary; only when
the message is fetched successfully does it strip the controls, delete the
row, refresh the cache, and post the roster (the post alone is best-effort:
a permission failure is swallowed, so `summaryPosted` simply tracks
permission and nothing is raised). -/
theorem expiry_message_gone_returns_early (rec : ExpiryRecord) (canPost : Bool)
    (title : String) (resolve : Nat → Bool) :
    on_event_timer_complete (some rec) true true false canPost title resolve =
      noEffects ∧
    ((buildResponseStr title rec.categories resolve).length ≤ 2000 →
      on_event_timer_complete (some rec) true true true canPost title resolve =
        { viewStripped := true, rowDeleted := true, cacheRefreshed := true,
          summaryPosted := canPost, raised := none }) := by
  constructor
  · rfl
  · intro h
    unfold on_event_timer_complete
    simp [show ¬ (2000 < (buildResponseStr title rec.categories resolve).length) by omega]

/-- Witness for C7's amended claim on the sample event with a short roster. -/
theorem expiry_message_gone_returns_early_witness :
    (buildResponseStr ("T") demoCats (fun _ => false)).length ≤ 2000 ∧
    on_event_timer_complete (some ⟨42, demoCats⟩) true true false true
        ("T") (fun _ => false) = noEffects ∧
    on_event_timer_complete (some ⟨42, demoCats⟩) true true true true
        ("T") (fun _ => false) =
      { viewStripped := true, rowDeleted := true, cacheRefreshed := true,
        summaryPosted := true, raised := none } :=
  ⟨by decide,
    (expiry_message_gone_returns_early ⟨42, demoCats⟩ true ("T") (fun _ => false)).1,
    (expiry_message_gone_returns_early ⟨42, demoCats⟩ true ("T") (fun _ => false)).2
      (by decide)⟩

/-- Claim C10: when the rendered roster exceeds the 2000-character limit,
the fatal error (the `raise ValueError` of line 160) fires only after the
event row deletion (line 156) and the cache refresh (line 157) have already
run — the deletion commits, no summary is posted, and the error is not
atomic with respect to the event's state. -/
theorem roster_too_large_after_delete (rec : ExpiryRecord) (canPost : Bool)
    (title : String) (resolve : Nat → Bool)
    (h : 2000 < (buildResponseStr title rec.categories resolve).length) :
    on_event_timer_complete (some rec) true true true canPost title resolve =
      { viewStripped := true, rowDeleted := true, cacheRefreshed := true,
        summaryPosted := false, raised := some .rosterTooLarge } := by
  unfold on_event_timer_complete
  simp [h]

/-- Witness for C10: a 2001-character title makes the rendered roster
exceed 2000 characters; the handler still deletes the row and refreshes the
cache before raising, and posts nothing. -/
theorem roster_too_large_after_delete_witness :
    2000 < (buildResponseStr (String.mk (List.replicate 2001 'a'))
        ([] : Categories) (fun _ => false)).length ∧
    on_event_timer_complete (some ⟨5, []⟩) true true true true
        (String.mk (List.replicate 2001 'a')) (fun _ => false) =
      { viewStripped := true, rowDeleted := true, cacheRefreshed := true,
        summaryPosted := false, raised := some .rosterTooLarge } := by
  have h1 : buildResponseStr (String.mk (List.replicate 2001 'a'))
      ([] : Categories) (fun _ => false) =
      "Event **'" ++ String.mk (List.replicate 2001 'a') ++ "'** is starting now!\n" := rfl
  have h2 : (String.mk (List.replicate 2001 'a')).length = 2001 := by
    show (List.replicate 2001 'a').length = 2001
    exact List.length_replicate 2001 'a'
  have hlen : 2000 < (buildResponseStr (String.mk (List.replicate 2001 'a'))
      ([] : Categories) (fun _ => false)).length := by
    rw [h1, String.length_append, String.length_append, h2]
    decide
  exact ⟨hlen,
    roster_too_large_after_delete ⟨5, []⟩ true
      (String.mk (List.replicate 2001 'a')) (fun _ => false) hlen⟩

/-- Claim C8: the display trimming of events.py line 37,
`names[: -(len(names)-5) or None]`, does not show the first min(n, 5)
names — for 4 names it shows only the first one, for 3 names only the
first two; and line 38 applies the ellipsis marker already at exactly 5
names (where nothing was truncated), not only when n > 5.  Only n > 5 is
trimmed to the first five as intended (the code's own comment even says
"Trim to last 5", which the slice does not do either). -/
theorem trim_names_bug :
    trimNames [("A"), ("B"), ("C"), ("D")] = [("A")] ∧
    trimNames [("A"), ("B"), ("C")] = [("A"), ("B")] ∧
    trimNames [("A"), ("B"), ("C"), ("D"), ("E")] =
      [("A"), ("B"), ("C"), ("D"), ("E")] ∧
    ellipsisMarkerApplied [("A"), ("B"), ("C"), ("D"), ("E")] = true ∧
    trimNames [("A"), ("B"), ("C"), ("D"), ("E"), ("F")] =
      [("A"), ("B"), ("C"), ("D"), ("E")] ∧
    ellipsisMarkerApplied [("A"), ("B")] = false := by
  decide

/-- Claim C9: the wizard's name check at events.py line 305 uses `or`
where the claim (and the check's own error branches) require `and`: a
duplicate name of at most 25 characters is accepted — and the dict
assignment of line 347 then silently replaces the earlier category — and a
unique name longer than 25 characters is accepted too.  The too-long abort
branch is unreachable: every name is either accepted or (only when both
over-long and duplicate) rejected as a duplicate. -/
theorem category_name_check_bug :
    categoryNameCheck ("Red") [("Red")] = .accepted ∧
    categoryNameCheck (String.mk (List.replicate 26 'a')) [] = .accepted ∧
    dictInsert [(("Red"), demoCat (some 2) [11])] ("Red") (demoCat none []) =
      [(("Red"), demoCat none [])] ∧
    ∀ content : String, ∀ existing : List String,
      categoryNameCheck content existing = .accepted ∨
        categoryNameCheck content existing = .duplicateError := by
  refine ⟨by decide, by decide, by decide, ?_⟩
  intro content existing
  unfold categoryNameCheck
  by_cases h1 : content.length ≤ 25 ∨ content ∉ existing
  · rw [if_pos h1]
    left
    rfl
  · rw [if_neg h1]
    push_neg at h1
    rw [if_pos h1.2]
    right
    rfl

end SnedEvents
